import Mathlib

/-!
Shallow embedding of the per-partition consumer of `kafka-client`
(`src/internal/consumer/partition.go`), together with the acknowledgment
tracker it relies on.  The `ackManager` itself, the `list` error value and
`util.RunLifecycle` are not part of the sources at hand; their behaviour is
modelled from the specification (see the doc comments of the corresponding
definitions).  Durations are natural numbers of milliseconds, Kafka offsets
are integers, and the telemetry calls that the claims mention (commit-offset
gauge, backlog gauge, checkpoint pushes) are recorded explicitly in the
state; other counters and log lines are side-effect free and are elided.
-/

namespace KafkaConsumer

/-- Resolution status of one tracked entry of the ack manager. -/
inductive EntryStatus
  | pending
  | acked
deriving DecidableEq, Repr

/-- Whether a status is `acked`. -/
def EntryStatus.isAcked : EntryStatus → Bool
  | .acked => true
  | .pending => false

/-- Modelled from the spec: a TrackedEntry of the ack manager is
`{offset, status ∈ {Pending, Acked}}`; the `id` field is the opaque ack
handle correlating exactly one tracked entry. -/
structure TrackedEntry where
  id : Nat
  offset : Int
  status : EntryStatus
deriving DecidableEq, Repr

/-- Errors that the ack manager's registration can report.  The capacity
error corresponds to `list.ErrCapacity` in the source; `errOther` stands for
any other failure a registration could report (the intake loop of
`partition.go` handles that branch explicitly even though the modelled
tracker never produces it). -/
inductive AckErr
  | errCapacity
  | errOther
deriving DecidableEq, Repr

/-- Modelled from the spec: the `ackManager` (not under `src/`) is a bounded
ordered tracker of in-flight offsets.  `entries` holds the tracked entries in
arrival order, `commitLevel` is the offset of the last entry of the resolved
head-contiguous run that has been evicted so far (`-1` is the sentinel
meaning nothing has been resolved yet), and `nextId` generates fresh ack
handles. -/
structure AckManager where
  maxOutstanding : Nat
  entries : List TrackedEntry
  commitLevel : Int
  nextId : Nat
deriving DecidableEq, Repr

/-- Modelled from the spec: a fresh ack manager with the given bound. -/
def newAckManager (maxOutstanding : Nat) : AckManager :=
  { maxOutstanding := maxOutstanding
    entries := []
    commitLevel := -1
    nextId := 0 }

/-- Number of tracked entries that are still unresolved. -/
def AckManager.pendingCount (m : AckManager) : Nat :=
  (m.entries.filter (fun e => !e.status.isAcked)).length

/-- Modelled from the spec: `Track`/`GetAckID` registers a new Pending entry
at the tail of the ordered structure, failing with the capacity error when
the Pending count already equals `maxOutstanding`; the call never blocks. -/
def AckManager.GetAckID (m : AckManager) (offset : Int) :
    Except AckErr (Nat × AckManager) :=
  if m.pendingCount = m.maxOutstanding then
    .error .errCapacity
  else
    .ok (m.nextId,
      { m with
          entries := m.entries ++ [⟨m.nextId, offset, .pending⟩]
          nextId := m.nextId + 1 })

/-- Modelled from the spec: `Ack` marks the entry with the given handle
Acked; resolving an already-resolved handle leaves the tracker state
unchanged (the implementation fails fast rather than corrupting state). -/
def AckManager.ack (m : AckManager) (i : Nat) : AckManager :=
  { m with
      entries := m.entries.map fun e =>
        if e.id = i ∧ e.status = .pending then { e with status := .acked } else e }

/-- Modelled from the spec: `Nack` routes the message to the dead-letter
collaborator but the tracked entry remains Pending (it still occupies
capacity) until a later `Ack` of the same handle resolves it, so on the
tracker state `Nack` is the identity. -/
def AckManager.nack (m : AckManager) (_i : Nat) : AckManager := m

/-- Modelled from the spec: the scan of `CommitLevel` — walk the
head-contiguous run of Acked entries, remembering the offset of the last one
seen, and stop at the first unresolved entry.  Returns the new commit level
and the surviving entries (the resolved run is evicted). -/
def commitScan : Int → List TrackedEntry → Int × List TrackedEntry
  | lvl, [] => (lvl, [])
  | lvl, e :: rest =>
    if e.status.isAcked then commitScan e.offset rest else (lvl, e :: rest)

/-- Modelled from the spec: `CommitLevel()` scans from the head, returns the
offset of the last entry of the longest Acked-contiguous run (or the stored
level — initially the `-1` sentinel — when nothing new is resolved), and
evicts that run, reclaiming capacity. -/
def AckManager.CommitLevel (m : AckManager) : Int × AckManager :=
  let res := commitScan m.commitLevel m.entries
  (res.1, { m with commitLevel := res.1, entries := res.2 })

/-- Configuration surface of the consumer (`Options` in the source):
`Concurrency` is the downstream worker count, `RcvBufferSize` the capacity
of the bounded output channel, `MaxProcessingTime` the processing-time
budget in milliseconds. -/
structure Options where
  Concurrency : Nat
  RcvBufferSize : Nat
  MaxProcessingTime : Nat
deriving DecidableEq, Repr

/-- A delivered message: the broker record (represented by its offset, the
only field the core logic inspects) together with its ack handle. -/
structure Msg where
  offset : Int
  ackId : Nat
deriving DecidableEq, Repr

/-- One `MarkPartitionOffset(topic, partition, offset, metadata)` call
pushed to the broker client. -/
structure MarkCall where
  topic : String
  partition : Int
  offset : Int
  metadata : String
deriving DecidableEq, Repr

/-- Observable shutdown/commit actions, recorded in order of execution. -/
inductive Action
  | closedStopChan
  | slept (d : Nat)
  | commitLevelCalled
  | markedOffset (off : Int)
  | closedPartitionConsumer
deriving DecidableEq, Repr

/-- Modelled from the spec: the status of `util.RunLifecycle` (not under
`src/`): NotStarted → Running → Stopped, terminal at Stopped. -/
inductive LifecycleStatus
  | notStarted
  | running
  | stopped
deriving DecidableEq, Repr

/-- State of one `partitionConsumer`.  `msgCh` records the messages sent on
the bounded output channel, `markedCalls` the checkpoints pushed to the
broker client, `dlqSent` the offsets handed to the dead-letter collaborator
(never touched by the intake/commit code under scrutiny), and `trace` the
observable action log. -/
structure PCState where
  topic : String
  id : Int
  options : Options
  ackMgr : AckManager
  msgCh : List Msg
  markedCalls : List MarkCall
  commitGauge : Option Int
  backlogGauge : Option Int
  dlqSent : List Int
  stopClosed : Bool
  consumerClosed : Bool
  lifecycle : LifecycleStatus
  trace : List Action
deriving DecidableEq, Repr

/-- `newPartitionConsumer` (partition.go, lines 61–85): the ack manager is
created with `maxUnAcked = options.Concurrency + options.RcvBufferSize + 1`. -/
def newPartitionConsumer (topic : String) (partition : Int) (options : Options) :
    PCState :=
  let maxUnAcked := options.Concurrency + options.RcvBufferSize + 1
  { topic := topic
    id := partition
    options := options
    ackMgr := newAckManager maxUnAcked
    msgCh := []
    markedCalls := []
    commitGauge := none
    backlogGauge := none
    dlqSent := []
    stopClosed := false
    consumerClosed := false
    lifecycle := .notStarted
    trace := [] }

/-- Offsets of the checkpoints pushed so far, in push order. -/
def PCState.markedOffsets (s : PCState) : List Int :=
  s.markedCalls.map (fun c => c.offset)

/-- `markOffset` (partition.go, lines 152–162): read
`ackMgr.CommitLevel()`; when the result is a real offset (`>= 0`), push it
via `MarkPartitionOffset`, update the commit-offset gauge, and set the
backlog gauge to `max(0, HighWaterMarkOffset() - latestOff)`.  The high-water
mark is an environment value and is passed in. -/
def markOffset (hwm : Int) (s : PCState) : PCState :=
  let res := s.ackMgr.CommitLevel
  let latestOff := res.1
  let s1 := { s with ackMgr := res.2, trace := s.trace ++ [Action.commitLevelCalled] }
  if 0 ≤ latestOff then
    { s1 with
        markedCalls := s1.markedCalls ++ [⟨s.topic, s.id, latestOff, ""⟩]
        commitGauge := some latestOff
        backlogGauge := some (max 0 (hwm - latestOff))
        trace := s1.trace ++ [Action.markedOffset latestOff] }
  else s1

/-- One registration attempt of `deliver` (partition.go, lines 165–177) as a
state transformer: a failed `GetAckID` leaves the state unchanged (the retry
of `trackOffset` is a sequence of such attempts, interleaved with the
resolutions of concurrent workers); on success the wrapped message is sent
on the output channel unless the shutdown signal wins the race
(`stopWins`), in which case the message is abandoned unresolved. -/
def deliverStep (off : Int) (stopWins : Bool) (s : PCState) : PCState :=
  match s.ackMgr.GetAckID off with
  | .error _ => s
  | .ok (ackId, m) =>
    if stopWins then { s with ackMgr := m }
    else { s with ackMgr := m, msgCh := s.msgCh ++ [⟨off, ackId⟩] }

/-- `stop` (partition.go, lines 203–211): guarded by the lifecycle so the
body runs at most once — close the stop channel, sleep the drain duration,
perform one final `markOffset`, then close the broker-partition client. -/
def PCState.stop (d : Nat) (hwm : Int) (s : PCState) : PCState :=
  if s.lifecycle = .stopped then s
  else
    let s1 := { s with stopClosed := true, trace := s.trace ++ [Action.closedStopChan] }
    let s2 := { s1 with trace := s1.trace ++ [Action.slept d] }
    let s3 := markOffset hwm s2
    { s3 with
        consumerClosed := true
        lifecycle := .stopped
        trace := s3.trace ++ [Action.closedPartitionConsumer] }

/-- `Stop` (partition.go, lines 100–102): `p.stop(time.Duration(0))`. -/
def PCState.Stop (hwm : Int) (s : PCState) : PCState := s.stop 0 hwm

/-- `Drain` (partition.go, lines 108–110): `p.stop(d)`. -/
def PCState.Drain (d : Nat) (hwm : Int) (s : PCState) : PCState := s.stop d hwm

/-- Wakeups of the commit loop's `select`: a ticker tick or the shutdown
signal; each carries the high-water mark the broker client would report at
that moment. -/
inductive CommitEv
  | tick (hwm : Int)
  | stopSignal (hwm : Int)
deriving DecidableEq, Repr

/-- `commitLoop` (partition.go, lines 137–149) over a scripted sequence of
wakeups: each tick calls `markOffset`; on the shutdown signal it performs
one final `markOffset` and returns.  `none` means the scripted wakeups ran
out while the loop was still blocked in its `select`. -/
def commitLoop : List CommitEv → PCState → Option PCState
  | [], _ => none
  | CommitEv.tick hwm :: rest, s => commitLoop rest (markOffset hwm s)
  | CommitEv.stopSignal hwm :: _, s => some (markOffset hwm s)

/-- The period of the commit loop's ticker (partition.go, line 138:
`time.NewTicker(p.options.MaxProcessingTime)`). -/
def commitTickerPeriod (o : Options) : Nat := o.MaxProcessingTime

/-- Outcomes of the intake loop's `select`: a record received from the
broker feed (with the oracle deciding the later delivery race), the feed
reporting closed, or the shutdown signal. -/
inductive IntakeEv
  | recv (offset : Int) (stopWins : Bool)
  | closed (hwm : Int)
  | stopSignal
deriving DecidableEq, Repr

/-- `messageLoop` (partition.go, lines 114–134) over a scripted sequence of
`select` outcomes: each received record is delivered; when the feed reports
closed the loop invokes `Drain(p.options.MaxProcessingTime)` and returns;
on the shutdown signal it returns.  `none` means the script ran out while
the loop was still waiting. -/
def messageLoop : List IntakeEv → PCState → Option PCState
  | [], _ => none
  | IntakeEv.recv off w :: rest, s => messageLoop rest (deliverStep off w s)
  | IntakeEv.closed hwm :: _, s =>
    some (PCState.Drain s.options.MaxProcessingTime hwm s)
  | IntakeEv.stopSignal :: _, s => some s

/-- The retry interval hard-coded at the `p.sleep(time.Millisecond * 100)`
call site of `trackOffset` (partition.go, line 194), in milliseconds. -/
def retryInterval : Nat := 100

/-- Result of a finished `trackOffset` call: an ack handle, the
`consumer stopped` error produced when the shutdown signal is observed
during the retry wait, or any other registration error returned through. -/
inductive TrackOutcome
  | got (id : Nat)
  | stoppedErr
  | otherErr
deriving DecidableEq, Repr

/-- Observable result of running `trackOffset`: its outcome (`none` while
still looping) and the cancellable waits it performed, in order. -/
structure TrackRun where
  outcome : Option TrackOutcome
  sleeps : List Nat
deriving DecidableEq, Repr

/-- `trackOffset` (partition.go, lines 180–201) over a scripted sequence of
per-iteration environment observations: each iteration sees the result of
`GetAckID` against the concurrently mutated tracker and, when that result is
the capacity error, whether the cancellable 100ms wait (`sleep`,
lines 213–220) observed the shutdown signal.  A non-capacity error returns
immediately; the capacity error sleeps `retryInterval` and either returns
the `consumer stopped` error (signal observed) or retries. -/
def trackOffsetRun : List (Except AckErr Nat × Bool) → TrackRun
  | [] => { outcome := none, sleeps := [] }
  | (Except.ok i, _) :: _ => { outcome := some (TrackOutcome.got i), sleeps := [] }
  | (Except.error e, stopObserved) :: rest =>
    if e = AckErr.errCapacity then
      if stopObserved then
        { outcome := some TrackOutcome.stoppedErr, sleeps := [retryInterval] }
      else
        let r := trackOffsetRun rest
        { outcome := r.outcome, sleeps := retryInterval :: r.sleeps }
    else { outcome := some TrackOutcome.otherErr, sleeps := [] }

/-- Result of one `deliver` call (partition.go, lines 165–177). -/
inductive DeliverResult
  | delivered (m : Msg)
  | abandoned (m : Msg)
  | skipped
deriving DecidableEq, Repr

/-- `deliver` against the same scripted environment as `trackOffsetRun`:
when tracking errors out, the record is skipped (nothing sent, no handle);
when tracking succeeds, the wrapped message is sent unless the shutdown
signal wins the race, in which case it is abandoned without being sent. -/
def deliverRun (off : Int) (iters : List (Except AckErr Nat × Bool))
    (stopWins : Bool) : Option DeliverResult :=
  match (trackOffsetRun iters).outcome with
  | none => none
  | some (TrackOutcome.got i) =>
    if stopWins then some (DeliverResult.abandoned ⟨off, i⟩)
    else some (DeliverResult.delivered ⟨off, i⟩)
  | some TrackOutcome.stoppedErr => some DeliverResult.skipped
  | some TrackOutcome.otherErr => some DeliverResult.skipped

/-- Atomic events of the whole partition consumer as seen by the shared
tracker: one registration attempt of the intake loop (with the race oracle
for the subsequent send), an `Ack`/`Nack` resolution from a downstream
worker, a `markOffset` from the commit loop, or a `Stop`/`Drain`
invocation. -/
inductive Ev
  | deliverEv (offset : Int) (stopWins : Bool)
  | ackEv (i : Nat)
  | nackEv (i : Nat)
  | markEv (hwm : Int)
  | stopEv (d : Nat) (hwm : Int)
deriving DecidableEq, Repr

/-- Interleaved small-step semantics of the consumer. -/
def step (s : PCState) : Ev → PCState
  | .deliverEv off w => deliverStep off w s
  | .ackEv i => { s with ackMgr := s.ackMgr.ack i }
  | .nackEv i => { s with ackMgr := s.ackMgr.nack i }
  | .markEv hwm => markOffset hwm s
  | .stopEv d hwm => s.stop d hwm

/-- Run a sequence of events. -/
def run (s : PCState) (evs : List Ev) : PCState := evs.foldl step s

/-- Admissibility of one event: the broker feed delivers records in strictly
increasing offset order (spec §3), so a registration attempt carries an
offset above every tracked entry and above the current commit level;
resolutions, commits and shutdowns are unconstrained. -/
def stepOK (s : PCState) : Ev → Bool
  | .deliverEv off _ =>
    s.ackMgr.entries.all (fun e => decide (e.offset < off))
      && decide (s.ackMgr.commitLevel < off)
  | _ => true

/-- Admissibility of a whole event sequence from a given state. -/
def goodTrace (s : PCState) : List Ev → Bool
  | [] => true
  | ev :: rest => stepOK s ev && goodTrace (step s ev) rest

/-- Whether an event resolves (acks) the given handle. -/
def resolvesId (i : Nat) : Ev → Bool
  | .ackEv j => j == i
  | _ => false

/-- Fold a list of `stop`/`Drain` invocations (duration and observed
high-water mark) over a state. -/
def applyStops (l : List (Nat × Int)) (s : PCState) : PCState :=
  l.foldl (fun t p => t.stop p.1 p.2) s

/-- Internal invariant of the ack manager: tracked offsets are strictly
increasing in arrival order and all lie strictly above the commit level. -/
def AckMgrInv (m : AckManager) : Prop :=
  ((m.entries.map fun e => e.offset).Pairwise (· < ·))
    ∧ ∀ e ∈ m.entries, m.commitLevel < e.offset

/-- Global invariant: the ack manager is well formed, every checkpoint
pushed so far is at most the current commit level, and the pushed
checkpoints are pairwise non-decreasing. -/
def GInv (s : PCState) : Prop :=
  AckMgrInv s.ackMgr
    ∧ (∀ x ∈ s.markedOffsets, x ≤ s.ackMgr.commitLevel)
    ∧ s.markedOffsets.Pairwise (· ≤ ·)

/-! ### Basic lemmas about the ack manager -/

theorem map_offset_ackMap (i : Nat) (l : List TrackedEntry) :
    ((l.map fun e =>
        if e.id = i ∧ e.status = EntryStatus.pending then { e with status := EntryStatus.acked }
        else e).map fun e => e.offset)
      = l.map fun e => e.offset := by
  induction l with
  | nil => rfl
  | cons e t ih =>
    by_cases h : e.id = i ∧ e.status = EntryStatus.pending <;> simp [h, ih]

theorem ack_offsets (m : AckManager) (i : Nat) :
    ((m.ack i).entries.map fun e => e.offset) = m.entries.map fun e => e.offset :=
  map_offset_ackMap i m.entries

theorem filter_pending_ackMap_le (i : Nat) (l : List TrackedEntry) :
    ((l.map fun e =>
        if e.id = i ∧ e.status = EntryStatus.pending then { e with status := EntryStatus.acked }
        else e).filter fun e => !e.status.isAcked).length
      ≤ (l.filter fun e => !e.status.isAcked).length := by
  rw [← List.countP_eq_length_filter, ← List.countP_eq_length_filter, List.countP_map]
  refine List.countP_mono_left ?_
  intro a _ h
  by_cases hc : a.id = i ∧ a.status = EntryStatus.pending
  · simp [Function.comp, hc, EntryStatus.isAcked] at h
  · simpa [Function.comp, hc] using h

theorem pendingCount_ack_le (m : AckManager) (i : Nat) :
    (m.ack i).pendingCount ≤ m.pendingCount :=
  filter_pending_ackMap_le i m.entries

theorem commitScan_sublist (lvl : Int) (l : List TrackedEntry) :
    (commitScan lvl l).2.Sublist l := by
  induction l generalizing lvl with
  | nil => simp [commitScan]
  | cons e t ih =>
    by_cases ha : e.status.isAcked
    · simpa [commitScan, ha] using (ih e.offset).trans (List.sublist_cons_self e t)
    · simp [commitScan, ha]

theorem commitScan_spec (l : List TrackedEntry) (lvl : Int)
    (hp : (l.map fun e => e.offset).Pairwise (· < ·))
    (hb : ∀ e ∈ l, lvl < e.offset) :
    lvl ≤ (commitScan lvl l).1
      ∧ (((commitScan lvl l).2.map fun e => e.offset).Pairwise (· < ·))
      ∧ (∀ e ∈ (commitScan lvl l).2, (commitScan lvl l).1 < e.offset) := by
  induction l generalizing lvl with
  | nil => simp [commitScan]
  | cons e t ih =>
    by_cases ha : e.status.isAcked
    · have hstep : commitScan lvl (e :: t) = commitScan e.offset t := by
        simp [commitScan, ha]
      have hp0 : (∀ x ∈ t, e.offset < x.offset)
          ∧ (t.map fun x => x.offset).Pairwise (· < ·) := by
        simpa using hp
      obtain ⟨h1, h3, h4⟩ := ih e.offset hp0.2 hp0.1
      rw [hstep]
      exact ⟨le_trans (le_of_lt (hb e (List.mem_cons_self e t))) h1, h3, h4⟩
    · have hstep : commitScan lvl (e :: t) = (lvl, e :: t) := by
        simp [commitScan, ha]
      rw [hstep]
      exact ⟨le_refl _, hp, hb⟩

theorem CommitLevel_spec (m : AckManager) (h : AckMgrInv m) :
    AckMgrInv m.CommitLevel.2
      ∧ m.commitLevel ≤ m.CommitLevel.1
      ∧ m.CommitLevel.2.commitLevel = m.CommitLevel.1 := by
  obtain ⟨hp, hb⟩ := h
  obtain ⟨h1, h3, h4⟩ := commitScan_spec m.entries m.commitLevel hp hb
  exact ⟨⟨h3, h4⟩, h1, rfl⟩

theorem CommitLevel_pendingCount_le (m : AckManager) :
    m.CommitLevel.2.pendingCount ≤ m.pendingCount :=
  List.Sublist.length_le
    (List.Sublist.filter _ (commitScan_sublist m.commitLevel m.entries))

theorem GetAckID_cases (m : AckManager) (off : Int) :
    (m.pendingCount = m.maxOutstanding
        ∧ m.GetAckID off = Except.error AckErr.errCapacity)
      ∨ (m.pendingCount ≠ m.maxOutstanding
        ∧ m.GetAckID off = Except.ok (m.nextId,
            { m with
                entries := m.entries ++ [⟨m.nextId, off, EntryStatus.pending⟩]
                nextId := m.nextId + 1 })) := by
  by_cases h : m.pendingCount = m.maxOutstanding
  · exact Or.inl ⟨h, by simp [AckManager.GetAckID, h]⟩
  · exact Or.inr ⟨h, by simp [AckManager.GetAckID, h]⟩

/-! ### The global invariant is preserved by every admissible step -/

theorem markOffset_eq_pos (hwm : Int) (s : PCState) (h : 0 ≤ s.ackMgr.CommitLevel.1) :
    markOffset hwm s =
      { s with
          ackMgr := s.ackMgr.CommitLevel.2
          markedCalls := s.markedCalls ++ [⟨s.topic, s.id, s.ackMgr.CommitLevel.1, ""⟩]
          commitGauge := some s.ackMgr.CommitLevel.1
          backlogGauge := some (max 0 (hwm - s.ackMgr.CommitLevel.1))
          trace := s.trace ++
            [Action.commitLevelCalled, Action.markedOffset s.ackMgr.CommitLevel.1] } := by
  simp [markOffset, h]

theorem markOffset_eq_neg (hwm : Int) (s : PCState) (h : ¬ 0 ≤ s.ackMgr.CommitLevel.1) :
    markOffset hwm s =
      { s with
          ackMgr := s.ackMgr.CommitLevel.2
          trace := s.trace ++ [Action.commitLevelCalled] } := by
  simp [markOffset, h]

theorem markOffset_GInv (hwm : Int) (s : PCState) (h : GInv s) : GInv (markOffset hwm s) := by
  obtain ⟨hm, hmk, hpw⟩ := h
  obtain ⟨hInv', hmono, hcl⟩ := CommitLevel_spec s.ackMgr hm
  by_cases hge : 0 ≤ s.ackMgr.CommitLevel.1
  · rw [markOffset_eq_pos hwm s hge]
    refine ⟨hInv', ?_, ?_⟩
    · intro x hx
      simp only [PCState.markedOffsets, List.map_append] at hx
      rcases List.mem_append.mp hx with h1 | h1
      · exact le_trans (hmk x h1) (by rw [hcl]; exact hmono)
      · simp at h1
        subst h1
        exact le_of_eq hcl.symm
    · simp only [PCState.markedOffsets, List.map_append]
      refine List.pairwise_append.mpr ⟨hpw, by simp, ?_⟩
      intro a ha b hb
      simp at hb
      subst hb
      exact le_trans (hmk a ha) hmono
  · rw [markOffset_eq_neg hwm s hge]
    refine ⟨hInv', ?_, hpw⟩
    intro x hx
    exact le_trans (hmk x hx) (by rw [hcl]; exact hmono)

theorem step_GInv (s : PCState) (ev : Ev) (h : GInv s) (hok : stepOK s ev = true) :
    GInv (step s ev) := by
  cases ev with
  | deliverEv off w =>
    obtain ⟨⟨hp, hb⟩, hmk, hpw⟩ := h
    simp only [stepOK, Bool.and_eq_true, List.all_eq_true, decide_eq_true_eq] at hok
    obtain ⟨hall, hcl⟩ := hok
    rcases GetAckID_cases s.ackMgr off with ⟨_, he⟩ | ⟨_, he⟩
    · simp only [step, deliverStep, he]
      exact ⟨⟨hp, hb⟩, hmk, hpw⟩
    · have hnew : AckMgrInv
          { s.ackMgr with
              entries := s.ackMgr.entries ++ [⟨s.ackMgr.nextId, off, EntryStatus.pending⟩]
              nextId := s.ackMgr.nextId + 1 } := by
        constructor
        · simp only [List.map_append]
          refine List.pairwise_append.mpr ⟨hp, by simp, ?_⟩
          intro a ha b hb'
          simp at hb'
          subst hb'
          rcases List.mem_map.mp ha with ⟨e, he', rfl⟩
          exact hall e he'
        · intro e he'
          rcases List.mem_append.mp he' with h1 | h1
          · exact hb e h1
          · simp at h1
            subst h1
            exact hcl
      cases w <;> simp only [step, deliverStep, he, if_pos, if_neg, Bool.false_eq_true,
        ite_false, ite_true] <;> exact ⟨hnew, hmk, hpw⟩
  | ackEv i =>
    obtain ⟨⟨hp, hb⟩, hmk, hpw⟩ := h
    refine ⟨⟨?_, ?_⟩, hmk, hpw⟩
    · simpa [step, ack_offsets] using hp
    · intro e he'
      simp only [step, AckManager.ack, List.mem_map] at he'
      rcases he' with ⟨x, hx, rfl⟩
      by_cases hc : x.id = i ∧ x.status = EntryStatus.pending <;>
        simpa [AckManager.ack, hc] using hb x hx
  | nackEv i =>
    simpa [step, AckManager.nack] using h
  | markEv hwm =>
    exact markOffset_GInv hwm s h
  | stopEv d hwm =>
    by_cases hl : s.lifecycle = LifecycleStatus.stopped
    · simpa [step, PCState.stop, hl] using h
    · simp only [step, PCState.stop, hl, if_neg, ite_false]
      exact markOffset_GInv hwm _ h

theorem run_GInv (evs : List Ev) :
    ∀ s : PCState, GInv s → goodTrace s evs = true → GInv (run s evs) := by
  induction evs with
  | nil =>
    intro s h _
    simpa [run] using h
  | cons ev rest ih =>
    intro s h hg
    simp only [goodTrace, Bool.and_eq_true] at hg
    exact ih (step s ev) (step_GInv s ev h hg.1) hg.2

theorem GInv_new (topic : String) (partition : Int) (o : Options) :
    GInv (newPartitionConsumer topic partition o) :=
  ⟨⟨by simp [newPartitionConsumer, newAckManager],
    by simp [newPartitionConsumer, newAckManager]⟩,
   by simp [newPartitionConsumer, PCState.markedOffsets],
   by simp [newPartitionConsumer, PCState.markedOffsets]⟩

/-! ### The configured capacity bounds the number of pending entries -/

theorem GetAckID_ok_spec (m : AckManager) (off : Int) (i : Nat) (m' : AckManager)
    (h : m.GetAckID off = Except.ok (i, m')) :
    m'.pendingCount = m.pendingCount + 1
      ∧ m'.maxOutstanding = m.maxOutstanding
      ∧ m.pendingCount ≠ m.maxOutstanding := by
  rcases GetAckID_cases m off with ⟨_, he⟩ | ⟨hne, he⟩
  · rw [he] at h
    cases h
  · rw [he] at h
    simp only [Except.ok.injEq, Prod.mk.injEq] at h
    obtain ⟨h1, h2⟩ := h
    subst h2
    refine ⟨?_, rfl, hne⟩
    simp [AckManager.pendingCount, List.filter_append, EntryStatus.isAcked]

theorem markOffset_ackMgr (hwm : Int) (s : PCState) :
    (markOffset hwm s).ackMgr = s.ackMgr.CommitLevel.2 := by
  by_cases hge : 0 ≤ s.ackMgr.CommitLevel.1
  · rw [markOffset_eq_pos hwm s hge]
  · rw [markOffset_eq_neg hwm s hge]

theorem step_maxOutstanding (s : PCState) (ev : Ev) :
    (step s ev).ackMgr.maxOutstanding = s.ackMgr.maxOutstanding := by
  cases ev with
  | deliverEv off w =>
    rcases GetAckID_cases s.ackMgr off with ⟨_, he⟩ | ⟨_, he⟩
    · simp [step, deliverStep, he]
    · cases w <;> simp [step, deliverStep, he]
  | ackEv i => rfl
  | nackEv i => rfl
  | markEv hwm =>
    simp [step, markOffset_ackMgr, AckManager.CommitLevel]
  | stopEv d hwm =>
    by_cases hl : s.lifecycle = LifecycleStatus.stopped <;>
      simp [step, PCState.stop, hl, markOffset_ackMgr, AckManager.CommitLevel]

theorem step_pending_le (s : PCState) (ev : Ev)
    (h : s.ackMgr.pendingCount ≤ s.ackMgr.maxOutstanding) :
    (step s ev).ackMgr.pendingCount ≤ s.ackMgr.maxOutstanding := by
  cases ev with
  | deliverEv off w =>
    rcases GetAckID_cases s.ackMgr off with ⟨_, he⟩ | ⟨hne, he⟩
    · simpa only [step, deliverStep, he] using h
    · obtain ⟨hpc, hmax, hne'⟩ := GetAckID_ok_spec s.ackMgr off _ _ he
      have hlt : s.ackMgr.pendingCount < s.ackMgr.maxOutstanding :=
        lt_of_le_of_ne h hne'
      cases w <;> simp only [step, deliverStep, he, ite_true, ite_false,
        Bool.false_eq_true] <;> omega
  | ackEv i =>
    exact le_trans (pendingCount_ack_le s.ackMgr i) h
  | nackEv i =>
    exact h
  | markEv hwm =>
    simp only [step, markOffset_ackMgr]
    exact le_trans (CommitLevel_pendingCount_le s.ackMgr) h
  | stopEv d hwm =>
    by_cases hl : s.lifecycle = LifecycleStatus.stopped
    · simpa only [step, PCState.stop, hl, ite_true] using h
    · simp only [step, PCState.stop, hl, ite_false, markOffset_ackMgr]
      exact le_trans (CommitLevel_pendingCount_le s.ackMgr) h

theorem run_maxOutstanding (evs : List Ev) :
    ∀ s : PCState, (run s evs).ackMgr.maxOutstanding = s.ackMgr.maxOutstanding := by
  induction evs with
  | nil => intro s; rfl
  | cons ev rest ih =>
    intro s
    exact (ih (step s ev)).trans (step_maxOutstanding s ev)

theorem run_pending_le (evs : List Ev) :
    ∀ s : PCState, s.ackMgr.pendingCount ≤ s.ackMgr.maxOutstanding →
      (run s evs).ackMgr.pendingCount ≤ s.ackMgr.maxOutstanding := by
  induction evs with
  | nil =>
    intro s h
    exact h
  | cons ev rest ih =>
    intro s h
    have h1 := step_pending_le s ev h
    have h2 := ih (step s ev) (by rw [step_maxOutstanding]; exact h1)
    rw [step_maxOutstanding] at h2
    exact h2

/-! ### An unresolved entry pins the commit level below its offset -/

theorem commitScan_pending_mem (l : List TrackedEntry) (lvl : Int) (i : Nat) (off : Int)
    (hp : (l.map fun e => e.offset).Pairwise (· < ·))
    (hb : ∀ e ∈ l, lvl < e.offset)
    (hm : (⟨i, off, EntryStatus.pending⟩ : TrackedEntry) ∈ l) :
    (⟨i, off, EntryStatus.pending⟩ : TrackedEntry) ∈ (commitScan lvl l).2
      ∧ (commitScan lvl l).1 < off := by
  induction l generalizing lvl with
  | nil => cases hm
  | cons e t ih =>
    by_cases ha : e.status.isAcked
    · have hstep : commitScan lvl (e :: t) = commitScan e.offset t := by
        simp [commitScan, ha]
      have hp0 : (∀ x ∈ t, e.offset < x.offset)
          ∧ (t.map fun x => x.offset).Pairwise (· < ·) := by
        simpa using hp
      have hm' : (⟨i, off, EntryStatus.pending⟩ : TrackedEntry) ∈ t := by
        rcases List.mem_cons.mp hm with h1 | h1
        · rw [← h1] at ha
          simp [EntryStatus.isAcked] at ha
        · exact h1
      rw [hstep]
      exact ih e.offset hp0.2 hp0.1 hm'
    · have hstep : commitScan lvl (e :: t) = (lvl, e :: t) := by
        simp [commitScan, ha]
      rw [hstep]
      exact ⟨hm, hb _ hm⟩

theorem GetAckID_AckMgrInv (m : AckManager) (off : Int)
    (h : AckMgrInv m) (hall : ∀ e ∈ m.entries, e.offset < off) (hcl : m.commitLevel < off) :
    AckMgrInv
      { m with
          entries := m.entries ++ [⟨m.nextId, off, EntryStatus.pending⟩]
          nextId := m.nextId + 1 } := by
  obtain ⟨hp, hb⟩ := h
  constructor
  · simp only [List.map_append]
    refine List.pairwise_append.mpr ⟨hp, by simp, ?_⟩
    intro a ha b hb'
    simp at hb'
    subst hb'
    rcases List.mem_map.mp ha with ⟨e, he', rfl⟩
    exact hall e he'
  · intro e he'
    rcases List.mem_append.mp he' with h1 | h1
    · exact hb e h1
    · simp at h1
      subst h1
      exact hcl

/-- The entry with handle `i` at offset `off` is still tracked and Pending,
the commit level sits strictly below its offset, and so does every
checkpoint pushed so far. -/
def PendingHolds (s : PCState) (i : Nat) (off : Int) : Prop :=
  AckMgrInv s.ackMgr
    ∧ (⟨i, off, EntryStatus.pending⟩ : TrackedEntry) ∈ s.ackMgr.entries
    ∧ s.ackMgr.commitLevel < off
    ∧ ∀ x ∈ s.markedOffsets, x < off

theorem markOffset_PendingHolds (hwm : Int) (s : PCState) (i : Nat) (off : Int)
    (h : PendingHolds s i off) : PendingHolds (markOffset hwm s) i off := by
  obtain ⟨⟨hp, hb⟩, hmem, hcl, hmk⟩ := h
  obtain ⟨hmem', hlt⟩ :=
    commitScan_pending_mem s.ackMgr.entries s.ackMgr.commitLevel i off hp hb hmem
  obtain ⟨hInv', hmono, hclv⟩ := CommitLevel_spec s.ackMgr ⟨hp, hb⟩
  by_cases hge : 0 ≤ s.ackMgr.CommitLevel.1
  · rw [markOffset_eq_pos hwm s hge]
    refine ⟨hInv', hmem', ?_, ?_⟩
    · rw [hclv]
      exact hlt
    · intro x hx
      simp only [PCState.markedOffsets, List.map_append] at hx
      rcases List.mem_append.mp hx with h1 | h1
      · exact hmk x h1
      · simp at h1
        subst h1
        exact hlt
  · rw [markOffset_eq_neg hwm s hge]
    refine ⟨hInv', hmem', ?_, hmk⟩
    rw [hclv]
    exact hlt

theorem step_PendingHolds (s : PCState) (ev : Ev) (i : Nat) (off : Int)
    (h : PendingHolds s i off) (hok : stepOK s ev = true)
    (hnr : resolvesId i ev = false) : PendingHolds (step s ev) i off := by
  cases ev with
  | deliverEv off2 w =>
    obtain ⟨hInv, hmem, hcl, hmk⟩ := h
    simp only [stepOK, Bool.and_eq_true, List.all_eq_true, decide_eq_true_eq] at hok
    rcases GetAckID_cases s.ackMgr off2 with ⟨_, he⟩ | ⟨_, he⟩
    · simp only [step, deliverStep, he]
      exact ⟨hInv, hmem, hcl, hmk⟩
    · have hnew := GetAckID_AckMgrInv s.ackMgr off2 hInv hok.1 hok.2
      cases w <;> simp only [step, deliverStep, he, ite_true, ite_false,
          Bool.false_eq_true] <;>
        exact ⟨hnew, List.mem_append_left _ hmem, hcl, hmk⟩
  | ackEv j =>
    obtain ⟨⟨hp, hb⟩, hmem, hcl, hmk⟩ := h
    have hji : ¬(i = j) := by
      simp only [resolvesId, beq_eq_false_iff_ne, ne_eq] at hnr
      exact fun hh => hnr hh.symm
    refine ⟨⟨?_, ?_⟩, ?_, hcl, hmk⟩
    · simpa [step, ack_offsets] using hp
    · intro e he'
      simp only [step, AckManager.ack, List.mem_map] at he'
      rcases he' with ⟨x, hx, rfl⟩
      by_cases hc : x.id = j ∧ x.status = EntryStatus.pending <;>
        simpa [AckManager.ack, hc] using hb x hx
    · simp only [step, AckManager.ack]
      have := List.mem_map_of_mem
        (f := fun e : TrackedEntry =>
          if e.id = j ∧ e.status = EntryStatus.pending then { e with status := EntryStatus.acked }
          else e) hmem
      simpa [hji] using this
  | nackEv j =>
    simpa [step, AckManager.nack] using h
  | markEv hwm =>
    exact markOffset_PendingHolds hwm s i off h
  | stopEv d hwm =>
    by_cases hl : s.lifecycle = LifecycleStatus.stopped
    · simpa [step, PCState.stop, hl] using h
    · simp only [step, PCState.stop, hl, ite_false]
      exact markOffset_PendingHolds hwm _ i off h

theorem run_PendingHolds (i : Nat) (off : Int) (evs : List Ev) :
    ∀ s : PCState, PendingHolds s i off → goodTrace s evs = true →
      evs.all (fun e => !(resolvesId i e)) = true →
      PendingHolds (run s evs) i off := by
  induction evs with
  | nil =>
    intro s h _ _
    exact h
  | cons ev rest ih =>
    intro s h hg ha
    simp only [goodTrace, Bool.and_eq_true] at hg
    simp only [List.all_cons, Bool.and_eq_true, Bool.not_eq_true'] at ha
    exact ih (step s ev) (step_PendingHolds s ev i off h hg.1 ha.1) hg.2
      (by simp only [List.all_eq_true] at ha ⊢; exact ha.2)

/-! ### The shutdown sequence runs exactly once -/

/-- The observable action sequence of one execution of the shutdown body,
given the commit level the final commit reads. -/
def stopTraceBody (d : Nat) (lvl : Int) : List Action :=
  [Action.closedStopChan, Action.slept d, Action.commitLevelCalled]
    ++ (if 0 ≤ lvl then [Action.markedOffset lvl] else [])
    ++ [Action.closedPartitionConsumer]

theorem stop_trace (d : Nat) (hwm : Int) (s : PCState)
    (h : ¬s.lifecycle = LifecycleStatus.stopped) :
    (s.stop d hwm).trace = s.trace ++ stopTraceBody d s.ackMgr.CommitLevel.1 := by
  by_cases hge : 0 ≤ s.ackMgr.CommitLevel.1 <;>
    simp [PCState.stop, h, markOffset, hge, stopTraceBody]

theorem stop_lifecycle (d : Nat) (hwm : Int) (s : PCState) :
    (s.stop d hwm).lifecycle = LifecycleStatus.stopped := by
  by_cases hl : s.lifecycle = LifecycleStatus.stopped
  · simp [PCState.stop, hl]
  · simp [PCState.stop, hl]

theorem stop_of_stopped (d : Nat) (hwm : Int) (s : PCState)
    (h : s.lifecycle = LifecycleStatus.stopped) : s.stop d hwm = s := by
  simp [PCState.stop, h]

theorem applyStops_of_stopped (l : List (Nat × Int)) :
    ∀ s : PCState, s.lifecycle = LifecycleStatus.stopped → applyStops l s = s := by
  induction l with
  | nil =>
    intro s _
    rfl
  | cons p rest ih =>
    intro s h
    show applyStops rest (s.stop p.1 p.2) = s
    rw [stop_of_stopped p.1 p.2 s h]
    exact ih s h

/-! ### The capacity retry of trackOffset -/

theorem trackRun_spin (k : Nat) :
    trackOffsetRun (List.replicate k (Except.error AckErr.errCapacity, false))
      = { outcome := none, sleeps := List.replicate k retryInterval } := by
  induction k with
  | zero => rfl
  | succ n ih =>
    simp [List.replicate_succ, trackOffsetRun, ih]

theorem trackRun_stopped (k : Nat) :
    trackOffsetRun (List.replicate k (Except.error AckErr.errCapacity, false)
        ++ [(Except.error AckErr.errCapacity, true)])
      = { outcome := some TrackOutcome.stoppedErr
          sleeps := List.replicate (k + 1) retryInterval } := by
  induction k with
  | zero => rfl
  | succ n ih =>
    simp [List.replicate_succ, trackOffsetRun, ih]

/-! ### Claim theorems -/

/-- C1.  Across the lifetime of one partition consumer — any admissible
interleaving of registration attempts, Ack/Nack resolutions in arbitrary
order, commit-loop ticks and Stop/Drain invocations — the sequence of
offsets pushed to the broker as checkpoints by `markOffset` (which reads
`ackMgr.CommitLevel()` and calls `MarkPartitionOffset`) is monotonic
non-decreasing: every checkpoint push is at least the previous one. -/
theorem checkpoint_offsets_monotone (topic : String) (partition : Int) (o : Options)
    (evs : List Ev)
    (h : goodTrace (newPartitionConsumer topic partition o) evs = true) :
    ((run (newPartitionConsumer topic partition o) evs).markedOffsets).Chain' (· ≤ ·) :=
  ((run_GInv evs _ (GInv_new topic partition o) h).2.2).chain'

/-- Concrete event sequence exercising out-of-order resolutions for the C1
witness. -/
def wEvs : List Ev :=
  [Ev.deliverEv 10 false, Ev.deliverEv 11 false, Ev.markEv 20, Ev.ackEv 1,
   Ev.markEv 20, Ev.nackEv 0, Ev.ackEv 0, Ev.markEv 20, Ev.deliverEv 12 false,
   Ev.stopEv 0 20]

/-- Witness for C1 at a concrete trace with Acks arriving out of order. -/
theorem checkpoint_offsets_monotone_w :
    ((run (newPartitionConsumer "topic" 0 ⟨1, 1, 5⟩) wEvs).markedOffsets).Chain' (· ≤ ·) :=
  checkpoint_offsets_monotone "topic" 0 ⟨1, 1, 5⟩ wEvs (by decide)

/-- C2.  `newPartitionConsumer` creates its ack manager with capacity
`maxUnAcked = Concurrency + RcvBufferSize + 1`, and over every event
sequence the number of Pending (tracked, unresolved) entries never exceeds
that configured bound. -/
theorem maxOutstanding_configured_and_bounds_pending (topic : String) (partition : Int)
    (o : Options) (evs : List Ev) :
    (newPartitionConsumer topic partition o).ackMgr.maxOutstanding
        = o.Concurrency + o.RcvBufferSize + 1
      ∧ (run (newPartitionConsumer topic partition o) evs).ackMgr.pendingCount
        ≤ o.Concurrency + o.RcvBufferSize + 1 :=
  ⟨rfl, run_pending_le evs (newPartitionConsumer topic partition o) (by simp [newPartitionConsumer, newAckManager, AckManager.pendingCount])⟩

/-- C3.  `Drain(0)` performs exactly the same shutdown as `Stop()`: both
delegate to `stop` with a zero wait, so the resulting states are equal for
every consumer state and environment. -/
theorem drain_zero_eq_stop (hwm : Int) (s : PCState) :
    PCState.Drain 0 hwm s = PCState.Stop hwm s := rfl

/-- C4.  The commit loop's timer has period `Options.MaxProcessingTime`;
each tick calls `markOffset`, which reads `CommitLevel()`; when the result
is a real offset (`≥ 0`, not the `-1` sentinel) it is pushed to the broker
client via `MarkPartitionOffset` and the backlog gauge becomes
`max(0, HighWaterMarkOffset() − committedOffset)`; when the result is the
sentinel no checkpoint is pushed. -/
theorem commit_tick_behaviour (o : Options) (s : PCState) (hwm : Int)
    (rest : List CommitEv) :
    commitTickerPeriod o = o.MaxProcessingTime
      ∧ commitLoop (CommitEv.tick hwm :: rest) s = commitLoop rest (markOffset hwm s)
      ∧ (markOffset hwm s).markedCalls
          = s.markedCalls ++ (if 0 ≤ s.ackMgr.CommitLevel.1
              then [⟨s.topic, s.id, s.ackMgr.CommitLevel.1, ""⟩] else [])
      ∧ (markOffset hwm s).backlogGauge
          = (if 0 ≤ s.ackMgr.CommitLevel.1
              then some (max 0 (hwm - s.ackMgr.CommitLevel.1)) else s.backlogGauge) := by
  refine ⟨rfl, rfl, ?_, ?_⟩ <;>
    by_cases hge : 0 ≤ s.ackMgr.CommitLevel.1 <;>
      simp [markOffset_eq_pos hwm s, markOffset_eq_neg hwm s, hge]

/-- C5.  For every number and order of Stop/Drain invocations, the shutdown
body — close the stop channel, wait the drain duration, perform one
best-effort final commit, close the broker-partition client, in that
order — executes exactly once: the first invocation appends exactly that
action sequence, reaches Stopped, and every later invocation is a no-op. -/
theorem shutdown_body_exactly_once (s : PCState) (d : Nat) (hwm : Int)
    (invocs : List (Nat × Int)) (h : ¬s.lifecycle = LifecycleStatus.stopped) :
    (s.stop d hwm).trace = s.trace ++ stopTraceBody d s.ackMgr.CommitLevel.1
      ∧ (s.stop d hwm).lifecycle = LifecycleStatus.stopped
      ∧ applyStops invocs (s.stop d hwm) = s.stop d hwm :=
  ⟨stop_trace d hwm s h, stop_lifecycle d hwm s,
    applyStops_of_stopped invocs _ (stop_lifecycle d hwm s)⟩

/-- Concrete running consumer used by the shutdown witnesses. -/
def wRunning : PCState :=
  { newPartitionConsumer "topic" 0 ⟨1, 1, 5⟩ with lifecycle := LifecycleStatus.running }

/-- Witness for C5: a running consumer, stopped once, is Stopped. -/
theorem shutdown_body_exactly_once_w :
    (wRunning.stop 3 7).lifecycle = LifecycleStatus.stopped :=
  (shutdown_body_exactly_once wRunning 3 7 [(0, 7), (2, 9)] (by decide)).2.1

/-- C6.  When the intake loop's receive reports the broker feed closed, it
is treated as upstream end-of-partition: the loop invokes a graceful
`Drain` with `Options.MaxProcessingTime` as the drain duration and
returns. -/
theorem feed_closed_graceful_drain (s : PCState) (hwm : Int) (rest : List IntakeEv) :
    messageLoop (IntakeEv.closed hwm :: rest) s
        = some (PCState.Drain s.options.MaxProcessingTime hwm s)
      ∧ PCState.Drain s.options.MaxProcessingTime hwm s
        = s.stop s.options.MaxProcessingTime hwm :=
  ⟨rfl, rfl⟩

/-- C7.  On the capacity-exceeded error `trackOffset` retries in a backoff
loop with the fixed 100ms interval, re-checking the shutdown signal each
iteration: if the signal is never observed the loop keeps retrying (one
100ms wait per iteration), and as soon as the signal is observed during a
wait the call returns the `consumer stopped` error instead of looping
forever. -/
theorem capacity_retry_backoff (k : Nat) :
    retryInterval = 100
      ∧ trackOffsetRun (List.replicate k (Except.error AckErr.errCapacity, false))
        = { outcome := none, sleeps := List.replicate k retryInterval }
      ∧ trackOffsetRun (List.replicate k (Except.error AckErr.errCapacity, false)
            ++ [(Except.error AckErr.errCapacity, true)])
        = { outcome := some TrackOutcome.stoppedErr
            sleeps := List.replicate (k + 1) retryInterval } :=
  ⟨rfl, trackRun_spin k, trackRun_stopped k⟩

/-- C8.  When a record's offset is successfully tracked, `deliver` either
sends the wrapped message on the output channel, or — if the shutdown
signal wins the race — returns without sending it and with its entry still
Pending; an abandoned message never advances the commit offset: along any
later admissible events that never ack its handle, every pushed checkpoint
stays strictly below its offset. -/
theorem deliver_sends_or_abandons (s : PCState) (off : Int) (w : Bool)
    (hg : GInv s) (hok : stepOK s (Ev.deliverEv off w) = true)
    (hcap : s.ackMgr.pendingCount ≠ s.ackMgr.maxOutstanding) :
    (w = false →
        (deliverStep off w s).msgCh = s.msgCh ++ [⟨off, s.ackMgr.nextId⟩])
      ∧ (w = true →
        (deliverStep off w s).msgCh = s.msgCh
          ∧ (⟨s.ackMgr.nextId, off, EntryStatus.pending⟩ : TrackedEntry)
              ∈ (deliverStep off w s).ackMgr.entries
          ∧ ∀ evs : List Ev,
              goodTrace (deliverStep off w s) evs = true →
              evs.all (fun e => !(resolvesId s.ackMgr.nextId e)) = true →
              ∀ x ∈ (run (deliverStep off w s) evs).markedOffsets, x < off) := by
  obtain ⟨hInv, hmk, _⟩ := hg
  simp only [stepOK, Bool.and_eq_true, List.all_eq_true, decide_eq_true_eq] at hok
  rcases GetAckID_cases s.ackMgr off with ⟨heq, _⟩ | ⟨_, he⟩
  · exact absurd heq hcap
  · constructor
    · intro hw
      subst hw
      simp [deliverStep, he]
    · intro hw
      subst hw
      have hd : deliverStep off true s
          = { s with
                ackMgr :=
                  { s.ackMgr with
                      entries := s.ackMgr.entries
                        ++ [⟨s.ackMgr.nextId, off, EntryStatus.pending⟩]
                      nextId := s.ackMgr.nextId + 1 } } := by
        simp [deliverStep, he]
      rw [hd]
      refine ⟨rfl, ?_, ?_⟩
      · exact List.mem_append_right _ (by simp)
      · intro evs hgood hnores
        have hph : PendingHolds
            { s with
                ackMgr :=
                  { s.ackMgr with
                      entries := s.ackMgr.entries
                        ++ [⟨s.ackMgr.nextId, off, EntryStatus.pending⟩]
                      nextId := s.ackMgr.nextId + 1 } } s.ackMgr.nextId off := by
          refine ⟨GetAckID_AckMgrInv s.ackMgr off hInv hok.1 hok.2,
            List.mem_append_right _ (by simp), hok.2, ?_⟩
          intro x hx
          exact lt_of_le_of_lt (hmk x hx) hok.2
        exact (run_PendingHolds s.ackMgr.nextId off evs _ hph hgood hnores).2.2.2

/-- Concrete consumer state for the C8 witness. -/
def wEight : PCState := newPartitionConsumer "topic" 0 ⟨1, 1, 5⟩

/-- Witness for C8: the shutdown signal wins the race, so nothing is sent. -/
theorem deliver_sends_or_abandons_w : (deliverStep 10 true wEight).msgCh = [] :=
  ((deliver_sends_or_abandons wEight 10 true (GInv_new "topic" 0 ⟨1, 1, 5⟩)
      (by decide) (by decide)).2 rfl).1

/-- C9.  A registration failure other than the capacity error makes
`trackOffset` return at once (no retry, no wait) and `deliver` skip the
record — nothing is sent downstream; the same skip happens when the
consumer is stopped during the capacity retry; and a failed registration
attempt leaves the consumer state completely unchanged (no tracked entry,
no message, no dead-letter hand-off). -/
theorem other_error_skips_record (off : Int) (w stopWins : Bool)
    (rest : List (Except AckErr Nat × Bool)) (s : PCState) (e : AckErr) (k : Nat)
    (h : s.ackMgr.GetAckID off = Except.error e) :
    trackOffsetRun ((Except.error AckErr.errOther, w) :: rest)
        = { outcome := some TrackOutcome.otherErr, sleeps := [] }
      ∧ deliverRun off ((Except.error AckErr.errOther, w) :: rest) stopWins
        = some DeliverResult.skipped
      ∧ deliverRun off (List.replicate k (Except.error AckErr.errCapacity, false)
            ++ [(Except.error AckErr.errCapacity, true)]) stopWins
        = some DeliverResult.skipped
      ∧ deliverStep off stopWins s = s := by
  have h1 : trackOffsetRun ((Except.error AckErr.errOther, w) :: rest)
      = { outcome := some TrackOutcome.otherErr, sleeps := [] } := by
    simp [trackOffsetRun]
  refine ⟨h1, ?_, ?_, ?_⟩
  · simp [deliverRun, h1]
  · simp [deliverRun, trackRun_stopped k]
  · simp [deliverStep, h]

/-- Consumer whose tracker is saturated (capacity zero), for the C9
witness. -/
def wNine : PCState :=
  { newPartitionConsumer "topic" 0 ⟨1, 1, 5⟩ with ackMgr := newAckManager 0 }

/-- Witness for C9: a failed registration leaves the state unchanged. -/
theorem other_error_skips_record_w : deliverStep 4 false wNine = wNine :=
  (other_error_skips_record 4 false false [] wNine AckErr.errCapacity 0 rfl).2.2.2

/-- C10.  When the commit loop observes the shutdown signal it performs one
final `markOffset` before returning; and the `stop` body performs its own
final commit as well (its action trace contains a `CommitLevel` read), so
during shutdown the final commit is attempted by both the commit loop and
the Stop/Drain sequence. -/
theorem final_commit_in_loop_and_stop (s : PCState) (hwm : Int)
    (rest : List CommitEv) (d : Nat) (hwm2 : Int)
    (h : ¬s.lifecycle = LifecycleStatus.stopped) :
    commitLoop (CommitEv.stopSignal hwm :: rest) s = some (markOffset hwm s)
      ∧ Action.commitLevelCalled ∈ (s.stop d hwm2).trace.drop s.trace.length := by
  refine ⟨rfl, ?_⟩
  rw [stop_trace d hwm2 s h, List.drop_left]
  simp [stopTraceBody]

/-- Witness for C10 at a concrete running consumer. -/
theorem final_commit_in_loop_and_stop_w :
    Action.commitLevelCalled ∈ (wRunning.stop 1 5).trace.drop wRunning.trace.length :=
  (final_commit_in_loop_and_stop wRunning 6 [] 1 5 (by decide)).2

end KafkaConsumer
